import Mathlib

/-!
Verification development for the Cleanforce field-reference removal engine.

The source operates on raw XML text with JavaScript regular expressions.  All
patterns used by the code are of a restricted shape (literal tags, lazy
any-character gaps, greedy whitespace runs, a true/false alternation), so each
pattern is embedded here as an explicit scanner over lists of characters with
exactly the leftmost-match / continue-after-match semantics of a global
JavaScript replace.  File contents are `List Char`; file systems are explicit
association lists.
-/

set_option maxRecDepth 100000

namespace Cleanforce

abbrev Chars := List Char

/-- Characters of a string literal, the form file contents take in this model. -/
def toC (s : String) : Chars := s.data

/-- Whitespace class of JavaScript regular expressions (the characters relevant
to XML metadata files; the exotic Unicode space code points are included for
the common ones). -/
def isWs (c : Char) : Bool :=
  c = ' ' || c = '\t' || c = '\n' || c = '\r' || c = '\x0b' || c = '\x0c' || c = '\u00a0'

/-- Literal prefix test: the needle occurs at the very start of the haystack. -/
def litPre : Chars → Chars → Bool
  | [], _ => true
  | _ :: _, [] => false
  | a :: as, b :: bs => a = b && litPre as bs

/-- Splits a haystack at the first occurrence of a literal needle:
`splitFirst n h = some (pre, post)` means `h = pre ++ n ++ post` and the
occurrence is the leftmost one.  Models `String.indexOf` and the leftmost-match
rule of JavaScript regex search for literal patterns. -/
def splitFirst (needle : Chars) : Chars → Option (Chars × Chars)
  | [] => if litPre needle [] then some ([], []) else none
  | c :: t =>
    if litPre needle (c :: t) then some ([], (c :: t).drop needle.length)
    else (splitFirst needle t).map (fun p => (c :: p.1, p.2))

/-- Substring containment, modelling `String.prototype.includes` and the
`.test` of a regex whose source is a fully escaped literal. -/
def containsL (hay needle : Chars) : Bool := (splitFirst needle hay).isSome

inductive Seg where
  | gap (s : Chars)
  | blk (s : Chars)
deriving Repr, DecidableEq

def Seg.text : Seg → Chars
  | .gap s => s
  | .blk s => s

def joinSegs (l : List Seg) : Chars := (l.map Seg.text).flatten

def extractSegs (openT closeT : Chars) : Nat → Chars → List Seg
  | 0, s => [Seg.gap s]
  | fuel + 1, s =>
    match splitFirst openT s with
    | none => [Seg.gap s]
    | some (pre, rest) =>
      match splitFirst closeT rest with
      | none => [Seg.gap s]
      | some (mid, post) =>
        Seg.gap pre :: Seg.blk (openT ++ mid ++ closeT) :: extractSegs openT closeT fuel post

/-- Deletes every block satisfying the removal test and counts the deletions,
keeping gaps untouched.  Models the function-based `content.replace(regex, m =>
shouldRemove(m) ? (removed++, emptyString) : m)` idiom: every span is tested
against the original matched text, so matches do not interfere within a pass. -/
def replaceSegs (remTest : Chars → Bool) : List Seg → Chars × Nat
  | [] => ([], 0)
  | Seg.gap g :: t =>
    let r := replaceSegs remTest t
    (g ++ r.1, r.2)
  | Seg.blk b :: t =>
    let r := replaceSegs remTest t
    if remTest b then (r.1, r.2 + 1) else (b ++ r.1, r.2)

/-- One global pass of the block-scoped pattern matcher: cut into spans of
`openT ... closeT` (lazy), drop each span passing the removal test. -/
def processBlocks (openT closeT : Chars) (remTest : Chars → Bool) (s : Chars) :
    Chars × Nat :=
  replaceSegs remTest (extractSegs openT closeT (s.length + 1) s)

/-- Spans that a run of the matcher deletes. -/
def removedSpans (openT closeT : Chars) (remTest : Chars → Bool) (s : Chars) :
    List Chars :=
  (extractSegs openT closeT (s.length + 1) s).filterMap fun seg =>
    match seg with
    | Seg.blk b => if remTest b then some b else none
    | Seg.gap _ => none

def countNl (l : Chars) : Nat := (l.filter (fun c => c = '\n')).length

/-- Index (from the front) just after the last newline of a list. -/
def afterLastNl (l : Chars) : Nat :=
  match l with
  | [] => 0
  | c :: t =>
    let r := afterLastNl t
    if r = 0 then (if c = '\n' then 1 else 0) else r + 1

def collapseNl : Nat → Chars → Chars
  | 0, s => s
  | _ + 1, [] => []
  | fuel + 1, c :: t =>
    if c = '\n' then
      let run := (c :: t).takeWhile isWs
      if 3 ≤ countNl run then
        let k := afterLastNl run
        '\n' :: '\n' :: collapseNl fuel ((c :: t).drop k)
      else c :: collapseNl fuel t
    else c :: collapseNl fuel t

/-- Whitespace collapse entry point (fuel is the content length, enough because
every replacement consumes at least three characters and every step at least
one). -/
def collapseNewlines (s : Chars) : Chars := collapseNl (s.length + 1) s

def remEmptyPair (openT closeT : Chars) : Nat → Chars → Chars
  | 0, s => s
  | _ + 1, [] => []
  | fuel + 1, c :: t =>
    if litPre openT (c :: t) then
      let rest := (c :: t).drop openT.length
      let rest2 := rest.dropWhile isWs
      if litPre closeT rest2 then
        remEmptyPair openT closeT fuel (rest2.drop closeT.length)
      else c :: remEmptyPair openT closeT fuel t
    else c :: remEmptyPair openT closeT fuel t

def removeEmptyPairs (openT closeT : Chars) (s : Chars) : Chars :=
  remEmptyPair openT closeT (s.length + 1) s

/-! ## Identifier sanitizer (security utilities)

Embedding of `sanitizeApiName`: reject empty input, trim whitespace, reject if
the trimmed name fails `^[a-zA-Z][a-zA-Z0-9_]*(__[a-zA-Z]+)?$` or is longer
than 80 characters, otherwise return the trimmed name. -/

def trimL (s : Chars) : Chars :=
  ((s.dropWhile isWs).reverse.dropWhile isWs).reverse

def isWordChar (c : Char) : Bool := c.isAlpha || c.isDigit || c = '_'

/-- Language of the regex head `[a-zA-Z][a-zA-Z0-9_]*`. -/
def mainPat : Chars → Bool
  | [] => false
  | c :: cs => c.isAlpha && cs.all isWordChar

/-- Language of the optional tail group `(__[a-zA-Z]+)?` up to the anchor. -/
def tailPat (v : Chars) : Bool :=
  v = [] ||
    (litPre (toC "__") v && v.drop 2 ≠ [] && (v.drop 2).all Char.isAlpha)

/-- Membership in `^[a-zA-Z][a-zA-Z0-9_]*(__[a-zA-Z]+)?$`: some split of the
word matches the head part and the optional tail group. -/
def validPat (t : Chars) : Bool :=
  (List.range (t.length + 1)).any fun k => mainPat (t.take k) && tailPat (t.drop k)

def sanitizeApiNameL (s : Chars) : Option Chars :=
  if s = [] then none
  else
    let t := trimL s
    if t = [] then none
    else if validPat t = false then none
    else if 80 < t.length then none
    else some t

/-- Characters escaped by `escapeRegex` (the class `[.*+?^${}()|[\]\\]`). -/
def metaChars : Chars :=
  ['.', '*', '+', '?', '^', '$', Char.ofNat 123, Char.ofNat 125,
   '(', ')', '|', '[', ']', '\\']

/-- Embedding of `escapeRegex`: every regex metacharacter is prefixed with a
backslash (global replace of each single metacharacter occurrence). -/
def escRegexL (s : Chars) : Chars :=
  s.flatMap fun c => if metaChars.contains c then ['\\', c] else [c]

/-- Reads a regex source back as a plain literal: succeeds exactly when the
pattern consists of non-metacharacter literals and backslash-escaped
metacharacters, yielding the character sequence the pattern matches verbatim.
Any unescaped metacharacter (which would change the matching semantics) makes
the result `none`. -/
def parseLits : Chars → Option Chars
  | [] => some []
  | '\\' :: c :: r =>
    if metaChars.contains c then (parseLits r).map (c :: ·) else none
  | ['\\'] => none
  | c :: r =>
    if metaChars.contains c then none else (parseLits r).map (c :: ·)

/-- Matching a literal-only pattern at a position of a text: the denoted
characters occur there verbatim. -/
def litMatchAt (lit text : Chars) (i : Nat) : Bool := litPre lit (text.drop i)

def eqCI (a b : Char) : Bool := a.toLower = b.toLower

def litPreCI : Chars → Chars → Bool
  | [], _ => true
  | _ :: _, [] => false
  | a :: as, b :: bs => eqCI a b && litPreCI as bs

/-- First case-insensitive occurrence of a literal: returns the text before the
occurrence, the occurrence itself in its original spelling, and the text after. -/
def splitFirstCI (needle : Chars) : Chars → Option (Chars × Chars × Chars)
  | [] => if litPreCI needle [] then some ([], [], []) else none
  | c :: t =>
    if litPreCI needle (c :: t) then
      some ([], (c :: t).take needle.length, (c :: t).drop needle.length)
    else (splitFirstCI needle t).map (fun p => (c :: p.1, p.2.1, p.2.2))

/-- Spans matched by a global case-insensitive `openTag[\s\S]*?closeTag`. -/
def ciSpans (openT closeT : Chars) : Nat → Chars → List Chars
  | 0, _ => []
  | fuel + 1, s =>
    match splitFirstCI openT s with
    | none => []
    | some (_, mo, rest) =>
      match splitFirstCI closeT rest with
      | none => []
      | some (mid, mc, post) => (mo ++ mid ++ mc) :: ciSpans openT closeT fuel post

/-- Spans matched by a global case-insensitive `openTag[\s\S]*?innerLit[\s\S]*?closeTag`
(the mangled `componentInstanceProperties` visibility pattern).  Lazy gaps bind
to the nearest following occurrence of each literal. -/
def ciSpans3 (openT innerT closeT : Chars) : Nat → Chars → List Chars
  | 0, _ => []
  | fuel + 1, s =>
    match splitFirstCI openT s with
    | none => []
    | some (_, mo, rest) =>
      match splitFirstCI innerT rest with
      | none => []
      | some (mid1, mi, rest2) =>
        match splitFirstCI closeT rest2 with
        | none => []
        | some (mid2, mc, post) =>
          (mo ++ mid1 ++ mi ++ mid2 ++ mc) :: ciSpans3 openT innerT closeT fuel post

/-- Existence test for `litA[\s\S]*?litB` on a span (`pattern.test(match)`):
the first occurrence of `litA` is followed, somewhere later, by `litB`. -/
def chainTest (litA litB span : Chars) : Bool :=
  match splitFirst litA span with
  | none => false
  | some (_, rest) => containsL rest litB

/-! ## FlexiPage cleaner (`FlexiPageCleaner.processFlexiPages`)

Per-field step: first collect visibility-construct matches that mention the
field (or `Object.Field`); if any exist the field is skipped for this file and
each match becomes a Visibility Reference warning.  Otherwise three removal
passes run (`itemInstances`, `fieldInstance`, `componentInstanceProperties`),
then the file-level cleanup collapses empty containers and whitespace. -/

def visibilityMatches (content : Chars) : List Chars :=
  let fuel := content.length + 1
  ciSpans (toC "<visibilityRule>") (toC "</visibilityRule>") fuel content ++
  ciSpans3 (toC "<componentInstanceProperties>") (toC "<n>visibilityRule</name>")
    (toC "</componentInstanceProperties>") fuel content ++
  ciSpans (toC "<filterCriteria>") (toC "</filterCriteria>") fuel content ++
  ciSpans (toC "<criteria>") (toC "</criteria>") fuel content

/-- Visibility-construct matches that mention the field name or the full
`Object.Field` reference; each produces one Visibility Reference warning. -/
def visWarnings (objectName fieldName content : Chars) : List Chars :=
  (visibilityMatches content).filter fun m =>
    containsL m fieldName || containsL m (objectName ++ '.' :: fieldName)

/-- Removal test of the `itemInstances` and `fieldInstance` passes: the span
contains the field item tag in `Record.Field`, bare `Field`, or `Object.Field`
form (the patterns are built from `escapeRegex`-ed names, hence literal). -/
def fieldItemTest (objectName fieldName : Chars) (span : Chars) : Bool :=
  containsL span (toC "<fieldItem>Record." ++ fieldName ++ toC "</fieldItem>") ||
  containsL span (toC "<fieldItem>" ++ fieldName ++ toC "</fieldItem>") ||
  containsL span (toC "<fieldItem>" ++ objectName ++ '.' :: fieldName ++ toC "</fieldItem>")

/-- Removal test of the `componentInstanceProperties` pass: visibility-related
properties are kept; otherwise the span is removed when a `fieldName` property
is followed by a matching `value`. -/
def cipTest (objectName fieldName : Chars) (span : Chars) : Bool :=
  if containsL span (toC "<n>visibilityRule</n>") ||
     containsL span (toC "<n>criteria</n>") ||
     containsL span (toC "<n>filter</n>") then false
  else
    chainTest (toC "<n>fieldName</n>") (toC "<value>" ++ fieldName ++ toC "</value>") span ||
    chainTest (toC "<n>fieldName</n>")
      (toC "<value>" ++ objectName ++ '.' :: fieldName ++ toC "</value>") span ||
    chainTest (toC "<n>fieldName</n>")
      (toC "<value>Record." ++ fieldName ++ toC "</value>") span

/-- State threaded through the per-field loop of one FlexiPage file:
current content, removal counter, Visibility Reference warnings so far
(field, matched construct). -/
def flexiFieldStep (objectName fieldName : Chars)
    (st : Chars × Nat × List (Chars × Chars)) : Chars × Nat × List (Chars × Chars) :=
  let vs := visWarnings objectName fieldName st.1
  if vs ≠ [] then
    (st.1, st.2.1, st.2.2 ++ vs.map (fun m => (fieldName, m)))
  else
    let r1 := processBlocks (toC "<itemInstances>") (toC "</itemInstances>")
      (fieldItemTest objectName fieldName) st.1
    let r2 := processBlocks (toC "<fieldInstance>") (toC "</fieldInstance>")
      (fieldItemTest objectName fieldName) r1.1
    let r3 := processBlocks (toC "<componentInstanceProperties>")
      (toC "</componentInstanceProperties>") (cipTest objectName fieldName) r2.1
    (r3.1, st.2.1 + r1.2 + r2.2 + r3.2, st.2.2)

structure FlexiFileResult where
  content : Chars
  removed : Nat
  warnings : List (Chars × Chars)
  wrote : Bool
deriving Repr, DecidableEq

/-- One FlexiPage file: per-field loop, empty-container cleanup, whitespace
collapse; the file is rewritten only when the content changed and at least one
block was removed. -/
def processFlexiPageFile (objectName : Chars) (fields : List Chars)
    (content : Chars) : FlexiFileResult :=
  let st := fields.foldl (fun st f => flexiFieldStep objectName f st) (content, 0, [])
  let c1 := removeEmptyPairs (toC "<itemInstances>") (toC "</itemInstances>") st.1
  let c2 := removeEmptyPairs (toC "<fieldInstances>") (toC "</fieldInstances>") c1
  let c3 := collapseNewlines c2
  { content := c3
    removed := st.2.1
    warnings := st.2.2
    wrote := c3 ≠ content && 0 < st.2.1 }

/-! ## FieldRemover: profile / permission-set field permissions (`processFile`)

The four `fieldPermissions` regexes are sequences of greedy whitespace runs,
literal tags and a `(?:true|false)` alternation.  Each following literal starts
with a non-whitespace character, so the greedy `\s*` deterministically consumes
the maximal whitespace run; the alternation branches are distinguished by their
first character, so the token matcher below is an exact embedding. -/

inductive PatTok where
  | ws
  | lit (l : Chars)
  | boolv
deriving Repr

def tokMatch : List PatTok → Chars → Option Chars
  | [], s => some s
  | PatTok.ws :: ps, s => tokMatch ps (s.dropWhile isWs)
  | PatTok.lit l :: ps, s =>
    if litPre l s then tokMatch ps (s.drop l.length) else none
  | PatTok.boolv :: ps, s =>
    if litPre (toC "true") s then tokMatch ps (s.drop 4)
    else if litPre (toC "false") s then tokMatch ps (s.drop 5)
    else none

/-- Global replace-with-empty of a token pattern: leftmost match, continue
after the match, count matches (`content.match(p).length` then
`content.replace(p, emptyString)`). -/
def scanPat (ps : List PatTok) : Nat → Chars → Chars × Nat
  | 0, s => (s, 0)
  | _ + 1, [] => ([], 0)
  | fuel + 1, c :: t =>
    match tokMatch ps (c :: t) with
    | some rest =>
      let r := scanPat ps fuel rest
      (r.1, r.2 + 1)
    | none =>
      let r := scanPat ps fuel t
      (c :: r.1, r.2)

/-- The four accepted tag orders of a `fieldPermissions` block. -/
def fpVariants (field : Chars) : List (List PatTok) :=
  [ [PatTok.ws, PatTok.lit (toC "<fieldPermissions>"), PatTok.ws,
     PatTok.lit (toC "<editable>"), PatTok.boolv, PatTok.lit (toC "</editable>"),
     PatTok.ws, PatTok.lit (toC "<field>" ++ field ++ toC "</field>"), PatTok.ws,
     PatTok.lit (toC "<readable>"), PatTok.boolv, PatTok.lit (toC "</readable>"),
     PatTok.ws, PatTok.lit (toC "</fieldPermissions>")],
    [PatTok.ws, PatTok.lit (toC "<fieldPermissions>"), PatTok.ws,
     PatTok.lit (toC "<field>" ++ field ++ toC "</field>"), PatTok.ws,
     PatTok.lit (toC "<editable>"), PatTok.boolv, PatTok.lit (toC "</editable>"),
     PatTok.ws, PatTok.lit (toC "<readable>"), PatTok.boolv,
     PatTok.lit (toC "</readable>"), PatTok.ws, PatTok.lit (toC "</fieldPermissions>")],
    [PatTok.ws, PatTok.lit (toC "<fieldPermissions>"), PatTok.ws,
     PatTok.lit (toC "<readable>"), PatTok.boolv, PatTok.lit (toC "</readable>"),
     PatTok.ws, PatTok.lit (toC "<editable>"), PatTok.boolv,
     PatTok.lit (toC "</editable>"), PatTok.ws,
     PatTok.lit (toC "<field>" ++ field ++ toC "</field>"), PatTok.ws,
     PatTok.lit (toC "</fieldPermissions>")],
    [PatTok.ws, PatTok.lit (toC "<fieldPermissions>"), PatTok.ws,
     PatTok.lit (toC "<readable>"), PatTok.boolv, PatTok.lit (toC "</readable>"),
     PatTok.ws, PatTok.lit (toC "<field>" ++ field ++ toC "</field>"), PatTok.ws,
     PatTok.lit (toC "<editable>"), PatTok.boolv, PatTok.lit (toC "</editable>"),
     PatTok.ws, PatTok.lit (toC "</fieldPermissions>")] ]

structure ProcessFileResult where
  content : Chars
  removed : Nat
  backedUp : Bool
  wrote : Bool
deriving Repr, DecidableEq

/-- Embedding of `FieldRemover.processFile`: if no target field occurs as a
substring the file is left alone; otherwise a backup is created immediately
(when backups are enabled), the four patterns are applied per field, and the
file is written back only when the content changed. -/
def processFileModel (backupEnabled : Bool) (fields : List Chars)
    (content : Chars) : ProcessFileResult :=
  if fields.any (fun f => containsL content f) then
    let st := fields.foldl
      (fun (st : Chars × Nat) f =>
        (fpVariants f).foldl
          (fun (st2 : Chars × Nat) v =>
            let r := scanPat v (st2.1.length + 1) st2.1
            (r.1, st2.2 + r.2))
          st)
      (content, 0)
    { content := st.1, removed := st.2, backedUp := backupEnabled,
      wrote := st.1 ≠ content }
  else
    { content := content, removed := 0, backedUp := false, wrote := false }

/-! ## FieldRemover: page layouts

`processLayouts` (the per-block path): spans of `<layoutItems>[\s\S]*?</layoutItems>`,
a span is removed exactly when it contains the literal `<field>NAME</field>`;
afterwards runs of three or more newlines are collapsed.  The file is written
back (and backed up first, when enabled) only if the content changed. -/

def layoutFieldLit (fieldName : Chars) : Chars :=
  toC "<field>" ++ fieldName ++ toC "</field>"

/-- One `processLayouts` pass for a single field, including the whitespace
cleanup that follows the per-field loop. -/
def layoutPass (fieldName content : Chars) : Chars × Nat :=
  let r := processBlocks (toC "<layoutItems>") (toC "</layoutItems>")
    (fun b => containsL b (layoutFieldLit fieldName)) content
  (collapseNewlines r.1, r.2)

structure LayoutFileResult where
  content : Chars
  removed : Nat
  backedUp : Bool
  wrote : Bool
  countedModified : Bool
deriving Repr, DecidableEq

/-- File-level bookkeeping of `processLayouts`: backup, write and the
`filesModified` counter all hang off the same changed-content test. -/
def processLayoutFileModel (backupEnabled : Bool) (fieldName content : Chars) :
    LayoutFileResult :=
  let r := layoutPass fieldName content
  let changed : Bool := r.1 ≠ content
  { content := r.1, removed := r.2, backedUp := backupEnabled && changed,
    wrote := changed, countedModified := changed }

/-- Embedding of the single regex of `FieldRemover.removeLayoutItems`:
`\s*<layoutItems>[\s\S]*?<field>NAME</field>[\s\S]*?</layoutItems>`, global
replace with the empty string, counting matches.  The lazy gaps bind to the
nearest following occurrences, so one match may run from one `<layoutItems>`
open tag across several blocks to the close tag that follows the field
literal. -/
def dropWsSuffix (l : Chars) : Chars := (l.reverse.dropWhile isWs).reverse

def remLIScan (fieldName : Chars) : Nat → Chars → Chars × Nat
  | 0, s => (s, 0)
  | fuel + 1, s =>
    match splitFirst (toC "<layoutItems>") s with
    | none => (s, 0)
    | some (pre, rest) =>
      match splitFirst (layoutFieldLit fieldName) rest with
      | none => (s, 0)
      | some (_, rest2) =>
        match splitFirst (toC "</layoutItems>") rest2 with
        | none => (s, 0)
        | some (_, post) =>
          let r := remLIScan fieldName fuel post
          (dropWsSuffix pre ++ r.1, r.2 + 1)

def removeLayoutItemsModel (fieldName content : Chars) : Chars × Nat :=
  remLIScan fieldName (content.length + 1) content

/-! ## FieldRemover: construction of the target field list

`execute` validates the object name and every field name with
`sanitizeApiName` before they are used; `executeOnFile` builds
`this.fieldsToRemove` from the raw input without any sanitization, and those
strings are then interpolated (only `escapeRegex`-escaped) into the
`fieldPermissions` regex sources by `processFile`. -/

def replFirst (pat s : Chars) : Chars :=
  match splitFirst pat s with
  | some (b, a) => b ++ a
  | none => s

/-- Field list built by `FieldRemover.execute`: strip one leading
`Object.` occurrence, sanitize, keep only accepted names. -/
def executeValidFields (objectName : Chars) (fields : List Chars) : List Chars :=
  fields.filterMap fun f =>
    (sanitizeApiNameL (replFirst (objectName ++ ['.']) f)).map
      fun s => objectName ++ '.' :: s

/-- Field list built by `FieldRemover.executeOnFile`: same rewriting but no
sanitization at all. -/
def executeOnFileFields (objectName : Chars) (fields : List Chars) : List Chars :=
  fields.map fun f => objectName ++ '.' :: replFirst (objectName ++ ['.']) f

/-- Source text of the first `fieldPermissions` regex that `processFile`
builds around a field reference (the standard editable/field/readable order). -/
def fpPatternSource (field : Chars) : Chars :=
  toC "\\s*<fieldPermissions>\\s*<editable>(?:true|false)</editable>\\s*<field>" ++
  escRegexL field ++
  toC "</field>\\s*<readable>(?:true|false)</readable>\\s*</fieldPermissions>"

/-! ## Backup/Restore store (`BackupManager`)

The file system is an association list from paths to byte sequences; the
backup-mapping JSON side table is a second association list.  `createBackup`
copies the current bytes of a file to a backup path (derived outside the model
from the timestamp and relative path) and upserts the mapping; a missing source
file makes the copy throw, which the code catches and turns into `undefined`
with no state change.  `restoreBackup` looks up the mapping and copies the
backup bytes back, returning `false` when the mapping or the backup file is
missing. -/

abbrev Bytes := List Nat

def lookupA (k : String) : List (String × Bytes) → Option Bytes
  | [] => none
  | (k2, v) :: t => if k2 = k then some v else lookupA k t

def lookupP (k : String) : List (String × String) → Option String
  | [] => none
  | (k2, v) :: t => if k2 = k then some v else lookupP k t

def updA (k : String) (v : Bytes) : List (String × Bytes) → List (String × Bytes)
  | [] => [(k, v)]
  | (k2, v2) :: t => if k2 = k then (k, v) :: t else (k2, v2) :: updA k v t

def updP (k v : String) : List (String × String) → List (String × String)
  | [] => [(k, v)]
  | (k2, v2) :: t => if k2 = k then (k, v) :: t else (k2, v2) :: updP k v t

structure FsState where
  files : List (String × Bytes)
  mapping : List (String × String)
deriving Repr, DecidableEq

def createBackupM (st : FsState) (path backupPath : String) :
    FsState × Option String :=
  match lookupA path st.files with
  | none => (st, none)
  | some bytes =>
    ({ files := updA backupPath bytes st.files,
       mapping := updP path backupPath st.mapping }, some backupPath)

def restoreBackupM (st : FsState) (path : String) : FsState × Bool :=
  match lookupP path st.mapping with
  | none => (st, false)
  | some bp =>
    match lookupA bp st.files with
    | none => (st, false)
    | some bytes => ({ st with files := updA path bytes st.files }, true)

def effectiveMaxItems (cfg : Option Nat) : Nat :=
  match cfg with
  | none => 50
  | some 0 => 50
  | some m => m

def addEntryM {α : Type} (cfg : Option Nat) (history : List α) (e : α) : List α :=
  let h2 := e :: history
  if effectiveMaxItems cfg < h2.length then h2.take (effectiveMaxItems cfg) else h2

def addEntriesM {α : Type} (cfg : Option Nat) (history : List α) (es : List α) :
    List α :=
  es.foldl (fun h e => addEntryM cfg h e) history

/-- History entry detail fields that `undoLast` inspects. -/
structure HEntry where
  backupPath : Option String
  filesModified : Option (List String)
deriving Repr, DecidableEq

/-- Issues one `restoreBackup` per path, in order, collecting each path with
the result of its restore attempt; a `false` result does not stop the fold. -/
def restoreAllM (st : FsState) (paths : List String) :
    FsState × List (String × Bool) :=
  paths.foldl
    (fun (acc : FsState × List (String × Bool)) p =>
      let r := restoreBackupM acc.1 p
      (r.1, acc.2 ++ [(p, r.2)]))
    (st, [])

/-- Embedding of `HistoryManager.undoLast` (after the user confirmed): empty
history or an entry with neither backup path nor modified-file list fails;
otherwise every path of `filesModified` gets a restore attempt and the head
entry is removed from the log regardless of individual restore results. -/
def undoLastM (confirm : Bool) (st : FsState) (history : List HEntry) :
    Bool × FsState × List HEntry × List (String × Bool) :=
  match history with
  | [] => (false, st, history, [])
  | e :: t =>
    if e.backupPath = none && e.filesModified = none then (false, st, history, [])
    else if confirm = false then (false, st, history, [])
    else
      match e.filesModified with
      | some ps =>
        let r := restoreAllM st ps
        (true, r.1, t, r.2)
      | none => (true, st, t, [])

/-! ## Concrete fixtures used by the claim theorems -/

/-- FlexiPage file of end-to-end scenario 2: a visibility rule mentioning the
target field `Foo__c`. -/
def flexiScenario : Chars :=
  toC "<FlexiPage>\n  <visibilityRule>\n    <leftValue>Foo__c</leftValue>\n  </visibilityRule>\n</FlexiPage>\n"

/-- Layout with two blocks: the first references field `A` only, the second
the target `Name__c`. -/
def twoBlockLayout : Chars :=
  toC "<layoutItems><field>A</field></layoutItems><layoutItems><field>Name__c</field></layoutItems>"

/-- Layout whose only block references `Other_Name__c`, a strict superstring
of the target `Name__c`. -/
def otherNameLayout : Chars :=
  toC "<layoutItems>\n  <field>Other_Name__c</field>\n</layoutItems>"

/-- Content on which deleting the matched span splices together a fresh
`<layoutItems>` open tag, defeating idempotence of the layout pass. -/
def seamLayout : Chars :=
  toC "<layout<layoutItems><field>Foo__c</field></layoutItems>Items><field>Foo__c</field></layoutItems>"

/-- Ninety-character input whose trimmed form is a single letter: surrounding
whitespace is trimmed before the length check. -/
def ninetyCharName : Chars := 'A' :: List.replicate 89 ' '

/-- Profile content that contains the target field reference as plain text but
holds no `fieldPermissions` block at all. -/
def fpNoBlockContent : Chars := toC "<x>Case.Foo__c</x>"

/-- File system with one mapped path whose backup file is missing and one
well-mapped path. -/
def undoDemoFs : FsState :=
  { files := [("proj/b.xml", [10, 20])],
    mapping := [("proj/c.xml", "proj/b.xml")] }

/-- File system holding one file whose bytes are a multi-byte UTF-8 character. -/
def roundtripDemoFs : FsState :=
  { files := [("force-app/a.field-meta.xml", [226, 130, 172])], mapping := [] }

/-! ## Supporting lemmas -/

theorem litPre_append_drop (n : Chars) : ∀ h, litPre n h = true → h = n ++ h.drop n.length := by
  induction n with
  | nil => intro h _; simp
  | cons a as ih =>
    intro h hp
    cases h with
    | nil => simp [litPre] at hp
    | cons b bs =>
      simp only [litPre, Bool.and_eq_true, decide_eq_true_eq] at hp
      obtain ⟨rfl, hp2⟩ := hp
      simpa using ih bs hp2

theorem splitFirst_eq (needle : Chars) :
    ∀ h pre post, splitFirst needle h = some (pre, post) → h = pre ++ needle ++ post := by
  intro h
  induction h with
  | nil =>
    intro pre post hs
    simp only [splitFirst] at hs
    split at hs
    · rename_i hn
      have hne : needle = [] := by
        cases needle with
        | nil => rfl
        | cons a as => simp [litPre] at hn
      injection hs with hs
      injection hs with h1 h2
      rw [← h1, ← h2, hne]
      simp
    · exact absurd hs (by simp)
  | cons c t ih =>
    intro pre post hs
    simp only [splitFirst] at hs
    split at hs
    · rename_i hp
      injection hs with hs
      injection hs with h1 h2
      rw [← h1, ← h2]
      simpa using litPre_append_drop needle (c :: t) hp
    · cases hsp : splitFirst needle t with
      | none => rw [hsp] at hs; simp at hs
      | some p =>
        obtain ⟨p1, p2⟩ := p
        rw [hsp] at hs
        simp only [Option.map] at hs
        injection hs with hs
        injection hs with h1 h2
        have hteq := ih p1 p2 hsp
        rw [← h1, ← h2, hteq]
        simp

theorem litPre_self_append (n rest : Chars) : litPre n (n ++ rest) = true := by
  induction n with
  | nil => simp [litPre]
  | cons a as ih => simp [litPre, ih]

theorem splitFirst_isSome_of_eq (needle : Chars) :
    ∀ h pre post, h = pre ++ needle ++ post → (splitFirst needle h).isSome = true := by
  intro h
  induction h with
  | nil =>
    intro pre post he
    have hne : needle = [] := by
      cases needle with
      | nil => rfl
      | cons a as => cases pre <;> simp at he
    rw [hne]
    simp [splitFirst, litPre]
  | cons c t ih =>
    intro pre post he
    simp only [splitFirst]
    split
    · simp
    · rename_i hnp
      cases pre with
      | nil =>
        exfalso
        apply hnp
        simp only [List.nil_append] at he
        rw [he]
        exact litPre_self_append needle post
      | cons p ps =>
        simp only [List.cons_append] at he
        injection he with h1 h2
        have hsome := ih ps post h2
        cases hs : splitFirst needle t with
        | none => rw [hs] at hsome; simp at hsome
        | some q => simp [hs]

theorem containsL_of_occurs (needle pre post : Chars) :
    containsL (pre ++ needle ++ post) needle = true := by
  unfold containsL
  exact splitFirst_isSome_of_eq needle (pre ++ needle ++ post) pre post rfl

theorem containsL_mono_of_infix (needle b l r : Chars) (h : containsL b needle = true) :
    containsL (l ++ b ++ r) needle = true := by
  unfold containsL at h
  cases hs : splitFirst needle b with
  | none => rw [hs] at h; simp at h
  | some p =>
    have hb := splitFirst_eq needle b p.1 p.2 hs
    have : l ++ b ++ r = (l ++ p.1) ++ needle ++ (p.2 ++ r) := by
      rw [hb]; simp
    rw [this]
    exact containsL_of_occurs needle (l ++ p.1) (p.2 ++ r)

/-! ## Block-scoped pattern matcher

Embeds the global JavaScript regex shape `openTag[\s\S]*?closeTag` used by
`FieldRemover.processLayouts`, `FlexiPageCleaner.processFlexiPages` and the
other per-metadata-type rewriters: the content is cut into alternating gap and
block segments, where each block runs from the leftmost remaining occurrence of
the open tag to the nearest following close tag (lazy quantifier), and scanning
continues after the block.  Fuel bounds the recursion; one unit is consumed per
match and every match consumes at least one character, so fuel equal to the
content length is always sufficient. -/

theorem joinSegs_extractSegs (openT closeT : Chars) :
    ∀ fuel s, joinSegs (extractSegs openT closeT fuel s) = s := by
  intro fuel
  induction fuel with
  | zero => intro s; simp [extractSegs, joinSegs, Seg.text]
  | succ f ih =>
    intro s
    simp only [extractSegs]
    split
    · simp [joinSegs, Seg.text]
    · rename_i pre rest ho
      split
      · simp [joinSegs, Seg.text]
      · rename_i mid post hc
        have h1 := splitFirst_eq openT s pre rest ho
        have h2 := splitFirst_eq closeT rest mid post hc
        simp only [joinSegs, List.map_cons, List.flatten_cons, Seg.text]
        have h3 := ih post
        simp only [joinSegs] at h3
        rw [h3, h1, h2]
        simp

theorem blk_mem_extractSegs_infix (openT closeT : Chars) :
    ∀ fuel s b, Seg.blk b ∈ extractSegs openT closeT fuel s →
      ∃ l r, s = l ++ b ++ r := by
  intro fuel
  induction fuel with
  | zero => intro s b hb; simp [extractSegs] at hb
  | succ f ih =>
    intro s b hb
    simp only [extractSegs] at hb
    split at hb
    · simp at hb
    · rename_i pre rest ho
      split at hb
      · simp at hb
      · rename_i mid post hc
        have h1 := splitFirst_eq openT s pre rest ho
        have h2 := splitFirst_eq closeT rest mid post hc
        simp only [List.mem_cons] at hb
        rcases hb with hb | hb | hb
        · exact absurd hb (by simp)
        · injection hb with hb
          refine ⟨pre, post, ?_⟩
          rw [h1, h2, hb]
          simp
        · obtain ⟨l, r, hlr⟩ := ih post b hb
          refine ⟨pre ++ openT ++ mid ++ closeT ++ l, r, ?_⟩
          rw [h1, h2, hlr]
          simp

theorem replaceSegs_count_pos (remTest : Chars → Bool) :
    ∀ segs, 0 < (replaceSegs remTest segs).2 →
      ∃ b, Seg.blk b ∈ segs ∧ remTest b = true := by
  intro segs
  induction segs with
  | nil => intro h; simp [replaceSegs] at h
  | cons sg t ih =>
    intro h
    cases sg with
    | gap g =>
      simp only [replaceSegs] at h
      obtain ⟨b, hb, hr⟩ := ih h
      exact ⟨b, by simp [hb], hr⟩
    | blk b =>
      simp only [replaceSegs] at h
      by_cases hrb : remTest b = true
      · exact ⟨b, by simp, hrb⟩
      · rw [if_neg hrb] at h
        obtain ⟨b2, hb2, hr2⟩ := ih h
        exact ⟨b2, by simp [hb2], hr2⟩

theorem processBlocks_count_pos (openT closeT : Chars) (remTest : Chars → Bool)
    (s : Chars) (h : 0 < (processBlocks openT closeT remTest s).2) :
    ∃ b l r, s = l ++ b ++ r ∧ remTest b = true := by
  obtain ⟨b, hb, hr⟩ := replaceSegs_count_pos remTest _ h
  obtain ⟨l, r, hlr⟩ := blk_mem_extractSegs_infix openT closeT (s.length + 1) s b hb
  exact ⟨b, l, r, hlr, hr⟩

/-! ## Whitespace post-processing

`content.replace(/\n\s*\n\s*\n/g, newlineNewline)`: any whitespace run that
starts at a newline and contains at least three newlines is collapsed, up to
its last newline, into exactly two newlines.  `remEmptyPair` models
`content.replace(/<tag>\s*<\/tag>/g, emptyString)`. -/

theorem parseLits_escRegexL_append (s : Chars) :
    ∀ p, parseLits (escRegexL s ++ p) = (parseLits p).map (s ++ ·) := by
  induction s with
  | nil =>
    intro p
    simp only [escRegexL, List.flatMap_nil, List.nil_append]
    cases parseLits p <;> simp
  | cons c t ih =>
    intro p
    by_cases hm : metaChars.contains c = true
    · have hm2 : c ∈ metaChars := by simpa using hm
      have hbs : escRegexL (c :: t) ++ p = '\\' :: c :: (escRegexL t ++ p) := by
        simp [escRegexL, hm2]
      rw [hbs]
      simp only [parseLits, if_pos hm, ih p]
      cases parseLits p <;> simp
    · have hm2 : c ∉ metaChars := by simpa using hm
      have hc : c ≠ '\\' := by
        intro hcc
        rw [hcc] at hm2
        simp [metaChars] at hm2
      have hbs : escRegexL (c :: t) ++ p = c :: (escRegexL t ++ p) := by
        simp [escRegexL, hm2]
      rw [hbs]
      have hstep : parseLits (c :: (escRegexL t ++ p)) =
          if metaChars.contains c = true then none
          else (parseLits (escRegexL t ++ p)).map (c :: ·) := by
        cases hcl : escRegexL t ++ p with
        | nil => cases hcc : c <;> simp_all [parseLits]
        | cons d u => cases hcc : c <;> simp_all [parseLits]
      rw [hstep, if_neg hm, ih p]
      cases parseLits p <;> simp

theorem parseLits_escRegexL (s : Chars) : parseLits (escRegexL s) = some s := by
  have := parseLits_escRegexL_append s []
  simpa [parseLits] using this

/-! ## Case-insensitive scanning (the `gi`-flagged visibility patterns)

`FlexiPageCleaner.processFlexiPages` matches its visibility constructs with
case-insensitive global regexes.  The matched spans keep the original
characters of the content. -/

theorem lookupA_updA_self (k : String) (v : Bytes) :
    ∀ l, lookupA k (updA k v l) = some v := by
  intro l
  induction l with
  | nil => simp [updA, lookupA]
  | cons p t ih =>
    obtain ⟨k2, v2⟩ := p
    by_cases hk : k2 = k
    · simp [updA, hk, lookupA]
    · simp [updA, hk, lookupA, ih]

theorem lookupP_updP_self (k v : String) :
    ∀ l, lookupP k (updP k v l) = some v := by
  intro l
  induction l with
  | nil => simp [updP, lookupP]
  | cons p t ih =>
    obtain ⟨k2, v2⟩ := p
    by_cases hk : k2 = k
    · simp [updP, hk, lookupP]
    · simp [updP, hk, lookupP, ih]

/-! ## Operation history log (`HistoryManager`)

Entries are prepended; when the length exceeds the configured maximum the list
is spliced down to that maximum.  The configuration read
`config.get('maxHistoryItems') || 50` turns an unset or zero setting into 50. -/

theorem parseLits_plain_append (w : Chars)
    (hw : w.all (fun c => !(metaChars.contains c)) = true) :
    ∀ p, parseLits (w ++ p) = (parseLits p).map (w ++ ·) := by
  induction w with
  | nil =>
    intro p
    cases hp : parseLits p <;> simp [hp]
  | cons c t ih =>
    intro p
    simp only [List.all_cons, Bool.and_eq_true, Bool.not_eq_true'] at hw
    obtain ⟨hc, ht⟩ := hw
    have hm2 : c ∉ metaChars := by simpa using hc
    have hcb : c ≠ '\\' := by
      intro hcc
      rw [hcc] at hm2
      simp [metaChars] at hm2
    have hstep : parseLits (c :: (t ++ p)) =
        if metaChars.contains c = true then none
        else (parseLits (t ++ p)).map (c :: ·) := by
      cases hcl : t ++ p with
      | nil => cases hcc : c <;> simp_all [parseLits]
      | cons d u => cases hcc : c <;> simp_all [parseLits]
    have ihh := ih ht p
    rw [List.cons_append, hstep, if_neg (by simpa using hm2), ihh]
    cases parseLits p <;> simp

/-! ## Claim theorems -/

/-- C10: `escapeRegex` neutralizes every regex metacharacter: the pattern built
from `escapeRegex(s)` denotes the literal character sequence `s`, matching a
text at a position exactly when `s` occurs there verbatim; consequently a
rewriter pattern of the form `<field>escapeRegex(name)</field>` denotes
exactly the literal tagged value, for arbitrary names including those with
`.` or `$`. -/
theorem C10_escape_regex_literal_matching (s text : Chars) (i : Nat) :
    parseLits (escRegexL s) = some s ∧
    (match parseLits (escRegexL s) with
     | some l => litMatchAt l text i
     | none => false) = litPre s (text.drop i) ∧
    parseLits (toC "<field>" ++ escRegexL s ++ toC "</field>") =
      some (toC "<field>" ++ s ++ toC "</field>") := by
  refine ⟨parseLits_escRegexL s, ?_, ?_⟩
  · rw [parseLits_escRegexL s]
    rfl
  · rw [List.append_assoc,
      parseLits_plain_append (toC "<field>") (by decide) (escRegexL s ++ toC "</field>"),
      parseLits_escRegexL_append s (toC "</field>")]
    have hclose : parseLits (toC "</field>") = some (toC "</field>") := by decide
    rw [hclose]
    simp

/-- C2: the claim that unsanitized user input never reaches pattern
construction fails on the code: `FieldRemover.executeOnFile` builds
`fieldsToRemove` without calling `sanitizeApiName`, so the input
`Bad Name` — which the sanitizer rejects — flows into the `fieldPermissions`
regex source built by `processFile`. -/
theorem C2_unsanitized_input_reaches_pattern :
    sanitizeApiNameL (toC "Bad Name") = none ∧
    executeOnFileFields (toC "Case") [toC "Bad Name"] = [toC "Case.Bad Name"] ∧
    containsL (fpPatternSource (toC "Case.Bad Name")) (toC "Bad Name") = true ∧
    executeValidFields (toC "Case") [toC "Bad Name", toC "Good__c"] =
      [toC "Case.Good__c"] := by
  refine ⟨by decide, by decide, by decide, by decide⟩

/-- C7: the sanitizer does reject the empty string, `123Field`, `Field Name`
and names whose trimmed form exceeds 80 characters (hence any 90-character
string without surrounding whitespace), and accepts `Account` and
`Custom_Field__c` unchanged; every accepted name is the trimmed input,
matches the identifier pattern and is at most 80 characters long. -/
theorem C7_sanitizer_amended (s t u : Chars)
    (h80 : 80 < (trimL u).length) (hs : sanitizeApiNameL s = some t) :
    sanitizeApiNameL (toC "") = none ∧
    sanitizeApiNameL (toC "123Field") = none ∧
    sanitizeApiNameL (toC "Field Name") = none ∧
    sanitizeApiNameL (List.replicate 90 'a') = none ∧
    sanitizeApiNameL (toC "Account") = some (toC "Account") ∧
    sanitizeApiNameL (toC "Custom_Field__c") = some (toC "Custom_Field__c") ∧
    sanitizeApiNameL u = none ∧
    t = trimL s ∧ validPat t = true ∧ t.length ≤ 80 := by
  refine ⟨by decide, by decide, by decide, by decide, by decide, by decide, ?_, ?_⟩
  · unfold sanitizeApiNameL
    by_cases hu : u = []
    · rw [hu] at h80
      simp [trimL] at h80
    · rw [if_neg hu]
      simp only
      by_cases htr : trimL u = []
      · rw [htr] at h80
        simp at h80
      · rw [if_neg htr]
        by_cases hvp : validPat (trimL u) = false
        · rw [if_pos hvp]
        · rw [if_neg hvp, if_pos h80]
  · unfold sanitizeApiNameL at hs
    by_cases hse : s = []
    · rw [if_pos hse] at hs
      exact absurd hs (by simp)
    · rw [if_neg hse] at hs
      simp only at hs
      by_cases htr : trimL s = []
      · rw [if_pos htr] at hs
        exact absurd hs (by simp)
      · rw [if_neg htr] at hs
        by_cases hvp : validPat (trimL s) = false
        · rw [if_pos hvp] at hs
          exact absurd hs (by simp)
        · rw [if_neg hvp] at hs
          by_cases hl : 80 < (trimL s).length
          · rw [if_pos hl] at hs
            exact absurd hs (by simp)
          · rw [if_neg hl] at hs
            injection hs with hs
            refine ⟨hs.symm, ?_, ?_⟩
            · rw [← hs]
              simpa using hvp
            · rw [← hs]
              omega

/-- C7 counterexample: the claim that every string of length 90 is rejected is
false: a 90-character input consisting of a letter and 89 trailing spaces is
trimmed first and accepted as `A`. -/
theorem C7_ninety_char_accepted_counterexample :
    ninetyCharName.length = 90 ∧ sanitizeApiNameL ninetyCharName = some ['A'] := by
  refine ⟨by decide, by decide⟩

/-- C7 witness: the amended sanitizer theorem applied at `Account` and an
81-character all-letter name. -/
theorem C7_sanitizer_amended_witness :
    sanitizeApiNameL (toC "") = none ∧
    sanitizeApiNameL (toC "123Field") = none ∧
    sanitizeApiNameL (toC "Field Name") = none ∧
    sanitizeApiNameL (List.replicate 90 'a') = none ∧
    sanitizeApiNameL (toC "Account") = some (toC "Account") ∧
    sanitizeApiNameL (toC "Custom_Field__c") = some (toC "Custom_Field__c") ∧
    sanitizeApiNameL (List.replicate 81 'b') = none ∧
    toC "Account" = trimL (toC "Account") ∧
    validPat (toC "Account") = true ∧ (toC "Account").length ≤ 80 :=
  C7_sanitizer_amended (toC "Account") (toC "Account") (List.replicate 81 'b')
    (by decide) (by decide)

theorem filterMap_removedSeg_all (p : Chars → Bool) :
    ∀ l : List Seg,
      ((l.filterMap fun seg =>
          match seg with
          | Seg.blk b => if p b then some b else none
          | Seg.gap _ => none).all p) = true := by
  intro l
  induction l with
  | nil => simp
  | cons sg t ih =>
    cases sg with
    | gap g => simpa [List.filterMap_cons] using ih
    | blk b =>
      by_cases hb : p b = true
      · simpa [List.filterMap_cons, hb] using ih
      · simpa [List.filterMap_cons, hb] using ih

/-- C5: the per-block layout matcher (`processLayouts`) indeed removes only
spans containing the exact literal `<field>NAME</field>` — in particular a
block holding only `Other_Name__c` survives a run against `Name__c` — but the
claim fails on `removeLayoutItems`, whose single lazy regex can swallow a
preceding non-matching block: with target `Name__c`, a file holding a block
for field `A` followed by a block for `Name__c` loses both. -/
theorem C5_precise_matcher_amended (field c : Chars) :
    ((removedSpans (toC "<layoutItems>") (toC "</layoutItems>")
        (fun b => containsL b (layoutFieldLit field)) c).all
      (fun b => containsL b (layoutFieldLit field))) = true ∧
    layoutPass (toC "Name__c") otherNameLayout = (otherNameLayout, 0) := by
  constructor
  · unfold removedSpans
    exact filterMap_removedSeg_all _ _
  · decide

/-- C5 counterexample: `removeLayoutItems` with target `Name__c` deletes the
whole two-block layout — including the `<layoutItems>` block that references
only field `A` — in a single cross-block match. -/
theorem C5_cross_block_removal_counterexample :
    removeLayoutItemsModel (toC "Name__c") twoBlockLayout = ([], 1) ∧
    containsL twoBlockLayout (toC "<layoutItems><field>A</field></layoutItems>") = true := by
  refine ⟨by decide, by decide⟩

/-- C6: the second application of the layout pass removes zero blocks whenever
the first pass's output no longer contains the target literal
`<field>NAME</field>` (in well-formed XML every occurrence of the literal sits
inside a matched span, so this hypothesis holds); unrestricted idempotence is
refuted by the seam counterexample. -/
theorem C6_second_pass_no_removals_amended (field c : Chars)
    (h : containsL (layoutPass field c).1 (layoutFieldLit field) = false) :
    (layoutPass field (layoutPass field c).1).2 = 0 := by
  unfold layoutPass
  simp only
  by_contra h0
  have hpos : 0 < (processBlocks (toC "<layoutItems>") (toC "</layoutItems>")
      (fun b => containsL b (layoutFieldLit field)) (layoutPass field c).1).2 :=
    Nat.pos_of_ne_zero h0
  obtain ⟨b, l, r, heq, hb⟩ := processBlocks_count_pos _ _ _ _ hpos
  have : containsL (layoutPass field c).1 (layoutFieldLit field) = true := by
    rw [heq]
    exact containsL_mono_of_infix _ b l r hb
  rw [this] at h
  exact absurd h (by simp)

/-- C6 witness: the amended theorem applied to the `Other_Name__c` layout,
whose first-pass output is free of the target literal. -/
theorem C6_second_pass_no_removals_witness :
    (layoutPass (toC "Foo__c") (layoutPass (toC "Foo__c") otherNameLayout).1).2 = 0 :=
  C6_second_pass_no_removals_amended (toC "Foo__c") otherNameLayout (by decide)

/-- C6 counterexample: deleting the matched span of `seamLayout` splices the
surrounding text into a fresh `<layoutItems>...</layoutItems>` block that still
contains the target, so the second application of the same pass removes one
more block instead of zero. -/
theorem C6_idempotence_counterexample :
    (layoutPass (toC "Foo__c") seamLayout).2 = 1 ∧
    (layoutPass (toC "Foo__c") (layoutPass (toC "Foo__c") seamLayout).1).2 = 1 := by
  refine ⟨by decide, by decide⟩

/-- C3: write-back and the `filesModified` count are tied to a changed-content
test in the layout pass, and the backup there happens only for changed files;
but `processFile` creates its backup as soon as any target field occurs as a
substring, before knowing whether a block will be removed, so a backup can be
taken for a file that is never rewritten. -/
theorem C3_write_iff_changed_amended (be : Bool) (f c : Chars) (fs : List Chars) :
    (processLayoutFileModel be f c).wrote =
      decide ((processLayoutFileModel be f c).content ≠ c) ∧
    (processLayoutFileModel be f c).backedUp =
      (be && (processLayoutFileModel be f c).wrote) ∧
    (processLayoutFileModel be f c).countedModified =
      (processLayoutFileModel be f c).wrote ∧
    (processFileModel be fs c).backedUp = (be && fs.any (fun x => containsL c x)) ∧
    (processFileModel be fs c).wrote = decide ((processFileModel be fs c).content ≠ c) := by
  refine ⟨rfl, rfl, rfl, ?_, ?_⟩
  · by_cases h : fs.any (fun x => containsL c x) = true
    · simp [processFileModel, h]
    · simp only [Bool.not_eq_true] at h
      simp [processFileModel, h]
  · by_cases h : fs.any (fun x => containsL c x) = true
    · simp [processFileModel, h]
    · simp only [Bool.not_eq_true] at h
      simp [processFileModel, h]

/-- C3 counterexample: a profile containing `Case.Foo__c` as plain text but no
`fieldPermissions` block is backed up by `processFile` even though nothing is
removed and the file is not rewritten. -/
theorem C3_backup_without_change_counterexample :
    processFileModel true [toC "Case.Foo__c"] fpNoBlockContent =
      { content := fpNoBlockContent, removed := 0, backedUp := true,
        wrote := false } := by
  decide

/-- C1: a field occurring inside any recognized visibility construct of a
FlexiPage file makes the per-field step skip block removal entirely for that
file (content and removal counter unchanged) while producing at least one
Visibility Reference warning for the (file, field) pair; on the scenario file
whose `visibilityRule` mentions `Foo__c`, the whole run removes zero blocks,
produces exactly one warning and does not rewrite the file. -/
theorem C1_visibility_reference_protection (obj field c : Chars) (r : Nat)
    (w : List (Chars × Chars)) (h : visWarnings obj field c ≠ []) :
    flexiFieldStep obj field (c, r, w) =
      (c, r, w ++ (visWarnings obj field c).map (fun m => (field, m))) ∧
    1 ≤ (visWarnings obj field c).length ∧
    (processFlexiPageFile (toC "Case") [toC "Foo__c"] flexiScenario).removed = 0 ∧
    (processFlexiPageFile (toC "Case") [toC "Foo__c"] flexiScenario).warnings.length = 1 ∧
    (processFlexiPageFile (toC "Case") [toC "Foo__c"] flexiScenario).wrote = false ∧
    (processFlexiPageFile (toC "Case") [toC "Foo__c"] flexiScenario).content =
      flexiScenario := by
  refine ⟨?_, ?_, by decide, by decide, by decide, by decide⟩
  · simp [flexiFieldStep, h]
  · have := List.length_pos.mpr h
    omega

/-- C1 witness: the protection theorem applied to the scenario file itself. -/
theorem C1_visibility_reference_protection_witness :
    flexiFieldStep (toC "Case") (toC "Foo__c") (flexiScenario, 0, []) =
      (flexiScenario, 0,
        [] ++ (visWarnings (toC "Case") (toC "Foo__c") flexiScenario).map
          (fun m => (toC "Foo__c", m))) ∧
    1 ≤ (visWarnings (toC "Case") (toC "Foo__c") flexiScenario).length ∧
    (processFlexiPageFile (toC "Case") [toC "Foo__c"] flexiScenario).removed = 0 ∧
    (processFlexiPageFile (toC "Case") [toC "Foo__c"] flexiScenario).warnings.length = 1 ∧
    (processFlexiPageFile (toC "Case") [toC "Foo__c"] flexiScenario).wrote = false ∧
    (processFlexiPageFile (toC "Case") [toC "Foo__c"] flexiScenario).content =
      flexiScenario :=
  C1_visibility_reference_protection (toC "Case") (toC "Foo__c") flexiScenario 0 []
    (by decide)

/-- C4: creating a backup of an existing file and immediately restoring it
returns `true` and leaves the file with byte-for-byte its original content,
for every file system state, path, backup path and byte sequence (including
the empty sequence and multi-byte encodings). -/
theorem C4_backup_restore_roundtrip (st : FsState) (path backupPath : String)
    (bytes : Bytes) (h : lookupA path st.files = some bytes) :
    (restoreBackupM (createBackupM st path backupPath).1 path).2 = true ∧
    lookupA path (restoreBackupM (createBackupM st path backupPath).1 path).1.files =
      some bytes := by
  simp [createBackupM, h, restoreBackupM, lookupP_updP_self, lookupA_updA_self]

/-- C4 witness: the round trip on a concrete file whose bytes are a multi-byte
UTF-8 character. -/
theorem C4_backup_restore_roundtrip_witness :
    (restoreBackupM
      (createBackupM roundtripDemoFs "force-app/a.field-meta.xml"
        ".cleanforce/backups/ts/force-app/a.field-meta.xml").1
      "force-app/a.field-meta.xml").2 = true ∧
    lookupA "force-app/a.field-meta.xml"
      (restoreBackupM
        (createBackupM roundtripDemoFs "force-app/a.field-meta.xml"
          ".cleanforce/backups/ts/force-app/a.field-meta.xml").1
        "force-app/a.field-meta.xml").1.files = some [226, 130, 172] :=
  C4_backup_restore_roundtrip roundtripDemoFs "force-app/a.field-meta.xml"
    ".cleanforce/backups/ts/force-app/a.field-meta.xml" [226, 130, 172] (by decide)

theorem takeAllOfLe {α : Type} : ∀ (l : List α) (n : Nat), l.length ≤ n → l.take n = l := by
  intro l
  induction l with
  | nil => intro n _; simp
  | cons a t ih =>
    intro n hn
    cases n with
    | zero => simp at hn
    | succ k =>
      simp only [List.take_succ_cons]
      rw [ih k (by simpa using hn)]

theorem addEntryM_eq_take {α : Type} (cfg : Option Nat) (h : List α) (e : α) :
    addEntryM cfg h e = (e :: h).take (effectiveMaxItems cfg) := by
  unfold addEntryM
  by_cases hl : effectiveMaxItems cfg < (e :: h).length
  · simp [hl]
  · rw [if_neg hl, takeAllOfLe (e :: h) (effectiveMaxItems cfg) (by omega)]

theorem one_le_effectiveMaxItems (cfg : Option Nat) : 1 ≤ effectiveMaxItems cfg := by
  match cfg with
  | none => decide
  | some 0 => decide
  | some (m + 1) => simp [effectiveMaxItems]

theorem addEntriesM_snoc_length {α : Type} (cfg : Option Nat) :
    ∀ (es : List α) (h : List α) (e : α),
      (addEntriesM cfg h (es ++ [e])).length =
        min (h.length + es.length + 1) (effectiveMaxItems cfg) := by
  intro es
  induction es with
  | nil =>
    intro h e
    simp only [List.nil_append, addEntriesM, List.foldl_cons, List.foldl_nil]
    rw [addEntryM_eq_take]
    simp only [List.length_take, List.length_cons, List.length_nil]
    omega
  | cons x xs ih =>
    intro h e
    have hfold : addEntriesM cfg h ((x :: xs) ++ [e]) =
        addEntriesM cfg (addEntryM cfg h x) (xs ++ [e]) := by
      simp [addEntriesM]
    rw [hfold, ih (addEntryM cfg h x) e, addEntryM_eq_take]
    simp only [List.length_take, List.length_cons]
    omega

theorem head_take_cons {α : Type} (m : Nat) (hm : 1 ≤ m) (e : α) (l : List α) :
    ((e :: l).take m).head? = some e := by
  cases m with
  | zero => omega
  | succ k => simp

/-- C8: with the effective maximum the code computes
(`config.get('maxHistoryItems') || 50`, i.e. 50 when unset or zero), inserting
maximum + 5 entries leaves the history at exactly the maximum length with the
most recently added entry at the head; every single insertion is
prepend-then-truncate, so the length bound and most-recent-first order are
invariant. -/
theorem C8_history_truncation {α : Type} (cfg : Option Nat) (h es : List α)
    (e : α) (h2 : List α) (e2 : α)
    (hlen : es.length + 1 = effectiveMaxItems cfg + 5) :
    (addEntriesM cfg h (es ++ [e])).length = effectiveMaxItems cfg ∧
    (addEntriesM cfg h (es ++ [e])).head? = some e ∧
    addEntryM cfg h2 e2 = (e2 :: h2).take (effectiveMaxItems cfg) ∧
    (addEntryM cfg h2 e2).length ≤ effectiveMaxItems cfg := by
  refine ⟨?_, ?_, addEntryM_eq_take cfg h2 e2, ?_⟩
  · rw [addEntriesM_snoc_length cfg es h e]
    omega
  · have hfold : addEntriesM cfg h (es ++ [e]) =
        addEntryM cfg (addEntriesM cfg h es) e := by
      simp [addEntriesM]
    rw [hfold, addEntryM_eq_take]
    exact head_take_cons _ (one_le_effectiveMaxItems cfg) _ _
  · rw [addEntryM_eq_take]
    simp only [List.length_take]
    omega

/-- C8 witness: truncation with a configured maximum of 2 after inserting
seven entries. -/
theorem C8_history_truncation_witness :
    (addEntriesM (some 2) ([] : List Nat) ([1, 2, 3, 4, 5, 6] ++ [7])).length =
      effectiveMaxItems (some 2) ∧
    (addEntriesM (some 2) ([] : List Nat) ([1, 2, 3, 4, 5, 6] ++ [7])).head? =
      some 7 ∧
    addEntryM (some 2) [8, 9] 10 = ((10 : Nat) :: [8, 9]).take (effectiveMaxItems (some 2)) ∧
    (addEntryM (some 2) [8, 9] (10 : Nat)).length ≤ effectiveMaxItems (some 2) :=
  C8_history_truncation (some 2) [] [1, 2, 3, 4, 5, 6] 7 [8, 9] 10 (by decide)

theorem restoreAll_foldl_map_fst (ps : List String) :
    ∀ (st : FsState) (acc : List (String × Bool)),
      ((ps.foldl
        (fun (a : FsState × List (String × Bool)) p =>
          ((restoreBackupM a.1 p).1, a.2 ++ [(p, (restoreBackupM a.1 p).2)]))
        (st, acc)).2).map Prod.fst = acc.map Prod.fst ++ ps := by
  induction ps with
  | nil => intro st acc; simp
  | cons p t ih =>
    intro st acc
    simp only [List.foldl_cons]
    rw [ih]
    simp

theorem restoreAllM_map_fst (st : FsState) (ps : List String) :
    (restoreAllM st ps).2.map Prod.fst = ps := by
  unfold restoreAllM
  have := restoreAll_foldl_map_fst ps st []
  simpa using this

/-- C9: a confirmed `undoLast` on a head entry carrying a `filesModified` list
issues exactly one restore attempt per listed path (in order, regardless of
individual failures) and then removes the head entry from the log; in the
concrete run one restore fails for lack of a backup mapping while the next
still executes and the entry is still popped. -/
theorem C9_undo_restores_all_and_pops (st : FsState) (bp : Option String)
    (ps : List String) (t : List HEntry) :
    undoLastM true st ({ backupPath := bp, filesModified := some ps } :: t) =
      (true, (restoreAllM st ps).1, t, (restoreAllM st ps).2) ∧
    (restoreAllM st ps).2.map Prod.fst = ps ∧
    undoLastM true undoDemoFs
        [{ backupPath := none, filesModified := some ["proj/a.xml", "proj/c.xml"] }] =
      (true,
        { files := [("proj/b.xml", [10, 20]), ("proj/c.xml", [10, 20])],
          mapping := [("proj/c.xml", "proj/b.xml")] },
        [],
        [("proj/a.xml", false), ("proj/c.xml", true)]) := by
  refine ⟨?_, restoreAllM_map_fst st ps, by decide⟩
  simp [undoLastM]

end Cleanforce
